import Mathlib

/-!
# Verification of the SPD tangent-space learning core

This development formalises the Riemannian-geometry core used by the
notebook `05_practical_methods__simple_machine_learning_on_tangent_spaces`:
the symmetric-matrix algebra (eigendecomposition-based matrix functions and
vectorization), the SPD manifold, the affine-invariant and log-Euclidean
metrics, the iterative Fréchet-mean estimator and the tangent-space
embedder (`ToTangentSpace`).  The notebook itself only calls this core
through the `geomstats` library, so the operations are modelled from the
specification's formulas, over exact real matrices (`Matrix (Fin n) (Fin n) ℝ`):
floating-point tolerance becomes exact equality.

Scalar functions of symmetric matrices ("apply `f` to each eigenvalue of
`M = U · diag(λ) · Uᵗ` and reassemble `U · diag(f λ) · Uᵗ`") are realised by
Mathlib's continuous functional calculus `cfc`, which on a real symmetric
matrix is literally the triple product
`U * diagonal (f ∘ eigenvalues) * star U` (`Matrix.IsHermitian.cfc_eq`).
-/

namespace Geomstats

open Matrix

/-- Square real matrices of size `n`, the ambient representation of SPD
matrices and of tangent vectors. -/
abbrev Mat (n : ℕ) : Type := Matrix (Fin n) (Fin n) ℝ

variable {n : ℕ}

/-- Any real function is continuous on a finite set: finite subsets of `ℝ`
are discrete.  This is what makes the functional calculus on matrices
total: a matrix has finitely many eigenvalues. -/
lemma continuousOn_of_finite {s : Set ℝ} (hs : s.Finite) (f : ℝ → ℝ) :
    ContinuousOn f s := by
  haveI : Finite s := hs.to_subtype
  exact continuousOn_iff_continuous_restrict.mpr continuous_of_discreteTopology

/-- Continuity of any scalar function on the (finite) real spectrum of a
matrix. -/
lemma continuousOn_spectrum (f : ℝ → ℝ) (A : Mat n) :
    ContinuousOn f (spectrum ℝ A) :=
  continuousOn_of_finite (Matrix.finite_real_spectrum (A := A)) f

/-- Continuity on the image of the spectrum under another function. -/
lemma continuousOn_image_spectrum (f g : ℝ → ℝ) (A : Mat n) :
    ContinuousOn g (f '' spectrum ℝ A) :=
  continuousOn_of_finite ((Matrix.finite_real_spectrum (A := A)).image f) g

/-! ## SymmetricMatrixAlgebra -/

/-- Modelled from the spec: `matrix_log(M)` is defined via eigendecomposition
`M = U·diag(λ)·Uᵗ`, applying the scalar logarithm to each eigenvalue and
reassembling `U·diag(log λᵢ)·Uᵗ` (the geomstats implementation is not part
of the notebook source).  `cfc Real.log M` is exactly this triple product. -/
noncomputable def matrix_log (M : Mat n) : Mat n := cfc Real.log M

/-- Modelled from the spec: `matrix_exp(M)` via eigendecomposition, applying
the scalar exponential to each eigenvalue. -/
noncomputable def matrix_exp (M : Mat n) : Mat n := cfc Real.exp M

/-- Modelled from the spec: `matrix_power(M, p)` via eigendecomposition,
applying the scalar power `λ ↦ λ^p` to each eigenvalue. -/
noncomputable def matrix_power (M : Mat n) (p : ℝ) : Mat n :=
  cfc (fun x : ℝ => x ^ p) M

/-- Squared Frobenius norm `‖M‖²_F = Σᵢⱼ Mᵢⱼ²`. -/
def frobSq (M : Mat n) : ℝ := ∑ i, ∑ j, (M i j) ^ 2

/-- Frobenius inner product `⟨S, T⟩_F = Σᵢⱼ Sᵢⱼ Tᵢⱼ`. -/
def frobInner (S T : Mat n) : ℝ := ∑ i, ∑ j, S i j * T i j

/-- Modelled from the spec: `vectorize(S)` maps a symmetric `n×n` matrix to a
length-`n(n+1)/2` vector by concatenating the diagonal and the off-diagonal
upper-triangular entries scaled by `√2` (the geomstats vectorization is not
part of the notebook source). -/
noncomputable def vectorize (S : Mat n) : List ℝ :=
  ((List.finRange n).map fun i => S i i) ++
    ((List.finRange n).flatMap fun i =>
      (((List.finRange n).filter fun j => decide (i < j)).map
        fun j => Real.sqrt 2 * S i j))

/-- Euclidean inner product of two flat feature vectors. -/
def dotList (a b : List ℝ) : ℝ := (List.zipWith (· * ·) a b).sum

/-- Modelled from the spec: the flattened Euclidean-baseline representation
produced by the dataset loader (`load_connectomes` with `as_vectors=True`,
which is not part of the notebook source): the strict upper-triangular
entries, omitting the diagonal, with no scaling. -/
noncomputable def flatVectorize (S : Mat n) : List ℝ :=
  (List.finRange n).flatMap fun i =>
    (((List.finRange n).filter fun j => decide (i < j)).map fun j => S i j)

/-! ## Error model -/

/-- Modelled from the spec: `DomainError` is raised by any metric or algebra
operation when an input fails the SPD/symmetry precondition. -/
inductive DomainError : Type
  | notSPD : DomainError
deriving DecidableEq

/-- Modelled from the spec: fatal error on `fit` with zero samples. -/
inductive FitError : Type
  | emptyDataset : FitError
deriving DecidableEq

open scoped Classical in
/-- Modelled from the spec: `matrix_log` requires a symmetric matrix with
all eigenvalues strictly positive (an SPD matrix) and fails with
`DomainError` otherwise. -/
noncomputable def matrix_log_checked (M : Mat n) : Except DomainError (Mat n) :=
  if M.PosDef then .ok (matrix_log M) else .error .notSPD

open scoped Classical in
/-- Modelled from the spec: `matrix_exp` requires a symmetric matrix. -/
noncomputable def matrix_exp_checked (M : Mat n) : Except DomainError (Mat n) :=
  if M.IsHermitian then .ok (matrix_exp M) else .error .notSPD

open scoped Classical in
/-- Modelled from the spec: `matrix_power` requires a symmetric matrix, and
with a negative exponent additionally requires all eigenvalues positive. -/
noncomputable def matrix_power_checked (M : Mat n) (p : ℝ) :
    Except DomainError (Mat n) :=
  if M.IsHermitian ∧ (p < 0 → M.PosDef) then .ok (matrix_power M p)
  else .error .notSPD

/-! ## The two Riemannian metrics -/

namespace SPDAffineMetric

/-- Modelled from the spec (affine-invariant metric):
`log(P, M) = P^{1/2} · matrix_log(P^{-1/2} M P^{-1/2}) · P^{1/2}`. -/
noncomputable def log (P M : Mat n) : Mat n :=
  matrix_power P (1 / 2) *
      matrix_log (matrix_power P (-(1 / 2)) * M * matrix_power P (-(1 / 2))) *
    matrix_power P (1 / 2)

/-- Modelled from the spec (affine-invariant metric):
`exp(P, V) = P^{1/2} · matrix_exp(P^{-1/2} V P^{-1/2}) · P^{1/2}`. -/
noncomputable def exp (P V : Mat n) : Mat n :=
  matrix_power P (1 / 2) *
      matrix_exp (matrix_power P (-(1 / 2)) * V * matrix_power P (-(1 / 2))) *
    matrix_power P (1 / 2)

/-- Modelled from the spec (affine-invariant metric):
`squared_distance(P, M) = ‖matrix_log(P^{-1/2} M P^{-1/2})‖²_F`. -/
noncomputable def squared_distance (P M : Mat n) : ℝ :=
  frobSq (matrix_log (matrix_power P (-(1 / 2)) * M * matrix_power P (-(1 / 2))))

end SPDAffineMetric

namespace SPDLogEuclideanMetric

/-- Modelled from the spec (log-Euclidean metric):
`log(P, M) = matrix_log(M) − matrix_log(P)`. -/
noncomputable def log (P M : Mat n) : Mat n := matrix_log M - matrix_log P

/-- Modelled from the spec (log-Euclidean metric):
`exp(P, V) = matrix_exp(matrix_log(P) + V)`. -/
noncomputable def exp (P V : Mat n) : Mat n := matrix_exp (matrix_log P + V)

/-- Modelled from the spec (log-Euclidean metric):
`squared_distance(P, M) = ‖matrix_log(M) − matrix_log(P)‖²_F`. -/
noncomputable def squared_distance (P M : Mat n) : ℝ :=
  frobSq (matrix_log M - matrix_log P)

end SPDLogEuclideanMetric

/-- A metric is a stateless pair of closed-form maps selected at
construction time (spec §3, §9): the capability interface
`{log, exp, squared_distance}` with two concrete implementations. -/
structure MetricOps (n : ℕ) where
  log : Mat n → Mat n → Mat n
  exp : Mat n → Mat n → Mat n
  squared_distance : Mat n → Mat n → ℝ

/-- The affine-invariant metric packaged as a capability record. -/
noncomputable def SPDAffineMetric.ops (n : ℕ) : MetricOps n :=
  ⟨SPDAffineMetric.log, SPDAffineMetric.exp, SPDAffineMetric.squared_distance⟩

/-- The log-Euclidean metric packaged as a capability record. -/
noncomputable def SPDLogEuclideanMetric.ops (n : ℕ) : MetricOps n :=
  ⟨SPDLogEuclideanMetric.log, SPDLogEuclideanMetric.exp,
    SPDLogEuclideanMetric.squared_distance⟩

open scoped Classical in
/-- Modelled from the spec: checked metric operation, failing with
`DomainError` if either argument is not SPD. -/
noncomputable def checkedOp {α : Type} (f : Mat n → Mat n → α) (P M : Mat n) :
    Except DomainError α :=
  if P.PosDef ∧ M.PosDef then .ok (f P M) else .error .notSPD

/-! ## FrechetMeanEstimator (spec §4.4) -/

/-- Modelled from the spec: the initial guess `P₀` of the Fréchet-mean
iteration is the arithmetic mean of the data. -/
noncomputable def arithmeticMean (data : List (Mat n)) : Mat n :=
  ((data.length : ℝ))⁻¹ • data.sum

/-- Modelled from the spec: the tangent mean `V = (1/k) Σᵢ log(P, Mᵢ)` under
the supplied metric. -/
noncomputable def tangentMean (g : MetricOps n) (P : Mat n)
    (data : List (Mat n)) : Mat n :=
  ((data.length : ℝ))⁻¹ • (data.map (g.log P)).sum

open scoped Classical in
/-- Modelled from the spec: the Fréchet-mean iteration.  At each step it
computes the tangent mean `V`; if `‖V‖_F` is below the tolerance it stops
and reports convergence, otherwise it updates `P ← exp(P, V)` and recurses,
bounded by the iteration cap.  It returns the last estimate, the number of
update steps performed, and a convergence flag (spec §7: hitting the cap is
non-fatal, the best-so-far estimate is still returned). -/
noncomputable def frechetLoop (g : MetricOps n) (tol : ℝ)
    (data : List (Mat n)) : ℕ → Mat n → Mat n × ℕ × Bool
  | 0, P => (P, 0, false)
  | (fuel + 1), P =>
    let V := tangentMean g P data
    if Real.sqrt (frobSq V) < tol then (P, 0, true)
    else
      let r := frechetLoop g tol data fuel (g.exp P V)
      (r.1, r.2.1 + 1, r.2.2)

/-- Modelled from the spec: the Fréchet-mean estimator.  An empty dataset is
a fatal error; otherwise the iteration starts from the arithmetic mean and
runs for at most `maxIter` steps.  The result is the estimate together with
the iteration count and the convergence flag. -/
noncomputable def FrechetMean (g : MetricOps n) (tol : ℝ) (maxIter : ℕ)
    (data : List (Mat n)) : Except FitError (Mat n × ℕ × Bool) :=
  match data with
  | [] => .error .emptyDataset
  | _ => .ok (frechetLoop g tol data maxIter (arithmeticMean data))

/-! ## TangentSpaceEmbedder (`ToTangentSpace`, spec §4.5) -/

/-- Modelled from the spec: `ToTangentSpace` is constructed from an explicit
choice of metric, convergence tolerance and iteration cap. -/
structure ToTangentSpace (n : ℕ) where
  metric : MetricOps n
  tol : ℝ
  maxIter : ℕ

/-- Modelled from the spec: `fit(dataset)` computes the Fréchet mean of the
dataset under the configured metric; this is the only stored state. -/
noncomputable def ToTangentSpace.fit (e : ToTangentSpace n)
    (data : List (Mat n)) : Except FitError (Mat n) :=
  (FrechetMean e.metric e.tol e.maxIter data).map (fun r => r.1)

/-- Modelled from the spec: `transform(dataset)` computes, for each matrix
`M` of the dataset, `V = metric.log(storedMean, M)` and returns
`vectorize(V)`; the stored mean is not modified. -/
noncomputable def ToTangentSpace.transform (e : ToTangentSpace n)
    (mean : Mat n) (data : List (Mat n)) : List (List ℝ) :=
  data.map fun M => vectorize (e.metric.log mean M)

/-! ## Spectral toolkit -/

/-- The real spectrum of a positive-definite matrix consists of positive
reals. -/
lemma spec_pos {P : Mat n} (hP : P.PosDef) : ∀ x ∈ spectrum ℝ P, 0 < x := by
  intro x hx
  rw [Matrix.IsHermitian.eigenvalues_eq_spectrum_real hP.isHermitian] at hx
  obtain ⟨i, rfl⟩ := hx
  exact hP.eigenvalues_pos i

/-- Congruence by an invertible matrix preserves positive definiteness. -/
lemma posDef_conj {D B : Mat n} (hD : D.PosDef) (hB : IsUnit B) :
    (B * D * Bᴴ).PosDef := by
  have hBH : IsUnit Bᴴ := by
    rw [Matrix.isUnit_iff_isUnit_det, Matrix.det_conjTranspose]
    exact (Matrix.isUnit_iff_isUnit_det B |>.mp hB).star
  refine ⟨?_, fun x hx => ?_⟩
  · have : (B * D * Bᴴ)ᴴ = B * D * Bᴴ := by
      rw [Matrix.conjTranspose_mul, Matrix.conjTranspose_mul,
        Matrix.conjTranspose_conjTranspose, hD.isHermitian.eq, Matrix.mul_assoc]
    exact this
  · have hy : Bᴴ *ᵥ x ≠ 0 := by
      refine (Matrix.mulVec_injective_iff_isUnit.mpr hBH |>.ne_iff' ?_).2 hx
      simp
    have key : dotProduct (star x) ((B * D * Bᴴ) *ᵥ x)
        = dotProduct (star (Bᴴ *ᵥ x)) (D *ᵥ (Bᴴ *ᵥ x)) := by
      rw [← Matrix.mulVec_mulVec, ← Matrix.mulVec_mulVec,
        Matrix.dotProduct_mulVec (star x) B, Matrix.star_mulVec,
        Matrix.conjTranspose_conjTranspose]
    rw [key]
    exact hD.2 _ hy

/-- A real matrix is Hermitian exactly when it is self-adjoint. -/
lemma isHermitian_of_isSelfAdjoint {A : Mat n} (h : IsSelfAdjoint A) :
    A.IsHermitian := by
  rw [Matrix.IsHermitian, ← Matrix.star_eq_conjTranspose]
  exact h

/-- Applying a spectrum-wise positive scalar function to a positive-definite
matrix yields a positive-definite matrix. -/
lemma cfc_posDef {P : Mat n} {f : ℝ → ℝ} (hP : P.PosDef)
    (hf : ∀ x ∈ spectrum ℝ P, 0 < f x) : (cfc f P).PosDef := by
  have hPh : P.IsHermitian := hP.isHermitian
  rw [hPh.cfc_eq f]
  unfold Matrix.IsHermitian.cfc
  have hdiag : (Matrix.diagonal (RCLike.ofReal ∘ f ∘ hPh.eigenvalues) :
      Mat n).PosDef := by
    refine Matrix.PosDef.diagonal fun i => ?_
    simpa using hf _ (hPh.eigenvalues_mem_spectrum_real i)
  have hU : IsUnit ((Matrix.IsHermitian.eigenvectorUnitary hPh : Mat n)) :=
    ⟨unitary.toUnits hPh.eigenvectorUnitary, rfl⟩
  have := posDef_conj hdiag hU
  rwa [← Matrix.star_eq_conjTranspose] at this

/-- Pointwise products of scalar functions on the spectrum give products in
the functional calculus. -/
lemma cfc_mul_cfc {P : Mat n} (f g h : ℝ → ℝ)
    (hfg : ∀ x ∈ spectrum ℝ P, f x * g x = h x) :
    cfc f P * cfc g P = cfc h P := by
  rw [← cfc_mul f g P (continuousOn_spectrum f P) (continuousOn_spectrum g P)]
  exact cfc_congr fun x hx => hfg x hx

/-- Any element of the spectrum of `c • 1` equals `c`. -/
lemma eq_of_mem_spectrum_smul_one {c x : ℝ}
    (hx : x ∈ spectrum ℝ (c • (1 : Mat n))) : x = c := by
  by_contra hne
  rw [spectrum.mem_iff] at hx
  apply hx
  have : algebraMap ℝ (Mat n) x - c • (1 : Mat n) = (x - c) • (1 : Mat n) := by
    rw [Algebra.algebraMap_eq_smul_one, sub_smul]
  rw [this]
  have hinv : ((x - c)⁻¹ • (1 : Mat n)) * ((x - c) • (1 : Mat n)) = 1 := by
    rw [smul_mul_smul_comm, one_mul,
      inv_mul_cancel₀ (sub_ne_zero_of_ne hne), one_smul]
  have hinv' : ((x - c) • (1 : Mat n)) * ((x - c)⁻¹ • (1 : Mat n)) = 1 := by
    rw [smul_mul_smul_comm, one_mul,
      mul_inv_cancel₀ (sub_ne_zero_of_ne hne), one_smul]
  exact ⟨⟨(x - c) • (1 : Mat n), (x - c)⁻¹ • (1 : Mat n), hinv', hinv⟩, rfl⟩

/-- The functional calculus on a scalar matrix `c • 1` is scalar evaluation. -/
lemma cfc_smul_one (f : ℝ → ℝ) (c : ℝ) :
    cfc f (c • (1 : Mat n)) = f c • (1 : Mat n) := by
  have hsa : IsSelfAdjoint (c • (1 : Mat n)) :=
    (IsSelfAdjoint.all c).smul (IsSelfAdjoint.one (Mat n))
  calc cfc f (c • (1 : Mat n))
      = cfc (fun _ : ℝ => f c) (c • (1 : Mat n)) :=
        cfc_congr fun x hx => by rw [eq_of_mem_spectrum_smul_one hx]
    _ = algebraMap ℝ (Mat n) (f c) := cfc_const _ _ hsa
    _ = f c • (1 : Mat n) := Algebra.algebraMap_eq_smul_one _

/-- The matrix logarithm of the identity vanishes. -/
lemma matrix_log_one : matrix_log (1 : Mat n) = 0 := by
  have h1 : (1 : Mat n) = (1 : ℝ) • (1 : Mat n) := (one_smul ℝ _).symm
  rw [matrix_log, h1, cfc_smul_one, Real.log_one, zero_smul]

/-! ## Matrix power identities on positive-definite matrices -/

/-- Powers of a positive-definite matrix are positive definite. -/
lemma matrix_power_posDef {P : Mat n} (hP : P.PosDef) (r : ℝ) :
    (matrix_power P r).PosDef :=
  cfc_posDef hP fun x hx => Real.rpow_pos_of_pos (spec_pos hP x hx) r

/-- Powers of a symmetric matrix are symmetric. -/
lemma matrix_power_isHermitian (P : Mat n) (r : ℝ) :
    (matrix_power P r).IsHermitian :=
  isHermitian_of_isSelfAdjoint (cfc_predicate _ P)

/-- Matrix powers of a positive-definite matrix add exponents. -/
lemma matrix_power_mul_matrix_power {P : Mat n} (hP : P.PosDef) (a b : ℝ) :
    matrix_power P a * matrix_power P b = matrix_power P (a + b) :=
  cfc_mul_cfc _ _ _ fun x hx => (Real.rpow_add (spec_pos hP x hx) a b).symm

/-- The zeroth matrix power is the identity. -/
lemma matrix_power_zero {P : Mat n} (hP : P.PosDef) :
    matrix_power P 0 = 1 := by
  have : (fun x : ℝ => x ^ (0 : ℝ)) = fun _ : ℝ => (1 : ℝ) :=
    funext fun x => Real.rpow_zero x
  rw [matrix_power, this]
  exact cfc_const_one ℝ P hP.isHermitian.isSelfAdjoint

/-- The first matrix power is the matrix itself. -/
lemma matrix_power_one_exp {P : Mat n} (hP : P.PosDef) :
    matrix_power P 1 = P := by
  have : (fun x : ℝ => x ^ (1 : ℝ)) = fun x : ℝ => x :=
    funext fun x => Real.rpow_one x
  rw [matrix_power, this]
  exact cfc_id' ℝ P hP.isHermitian.isSelfAdjoint

/-- `P^{1/2} · P^{-1/2} = 1` for positive-definite `P`. -/
lemma half_mul_neg_half {P : Mat n} (hP : P.PosDef) :
    matrix_power P (1 / 2) * matrix_power P (-(1 / 2)) = 1 := by
  rw [matrix_power_mul_matrix_power hP, add_neg_cancel, matrix_power_zero hP]

/-- `P^{-1/2} · P^{1/2} = 1` for positive-definite `P`. -/
lemma neg_half_mul_half {P : Mat n} (hP : P.PosDef) :
    matrix_power P (-(1 / 2)) * matrix_power P (1 / 2) = 1 := by
  rw [matrix_power_mul_matrix_power hP, neg_add_cancel, matrix_power_zero hP]

/-- `P^{1/2} · P^{1/2} = P` for positive-definite `P`. -/
lemma half_mul_half {P : Mat n} (hP : P.PosDef) :
    matrix_power P (1 / 2) * matrix_power P (1 / 2) = P := by
  rw [matrix_power_mul_matrix_power hP]
  norm_num
  exact matrix_power_one_exp hP

/-- The congruence `P^{-1/2} M P^{-1/2}` of an SPD matrix is SPD. -/
lemma inner_posDef {P M : Mat n} (hP : P.PosDef) (hM : M.PosDef) :
    (matrix_power P (-(1 / 2)) * M * matrix_power P (-(1 / 2))).PosDef := by
  have h := posDef_conj hM ((matrix_power_posDef hP (-(1 / 2))).isUnit)
  rwa [(matrix_power_isHermitian P (-(1 / 2))).eq] at h

/-- `matrix_exp` undoes `matrix_log` on positive-definite matrices. -/
lemma matrix_exp_matrix_log {X : Mat n} (hX : X.PosDef) :
    matrix_exp (matrix_log X) = X := by
  rw [matrix_exp, matrix_log,
    ← cfc_comp Real.exp Real.log X hX.isHermitian.isSelfAdjoint
      (continuousOn_image_spectrum Real.log Real.exp X)
      (continuousOn_spectrum Real.log X)]
  calc cfc (Real.exp ∘ Real.log) X
      = cfc (id : ℝ → ℝ) X :=
        cfc_congr fun x hx => Real.exp_log (spec_pos hX x hx)
    _ = X := cfc_id ℝ X hX.isHermitian.isSelfAdjoint

/-! ## C1: the round-trip law `exp(P, log(P, M)) = M` -/

/-- **C1.** For every SPD matrix `M` and SPD base point `P`, under both the
affine-invariant and the log-Euclidean metric, `exp(P, log(P, M)) = M`: the
logarithm and exponential maps at a fixed base point are mutual inverses
(exact equality in the real model standing for "up to numerical
tolerance"). -/
theorem round_trip_exp_log {n : ℕ} (P M : Mat n) (hP : P.PosDef)
    (hM : M.PosDef) :
    SPDAffineMetric.exp P (SPDAffineMetric.log P M) = M ∧
      SPDLogEuclideanMetric.exp P (SPDLogEuclideanMetric.log P M) = M := by
  constructor
  · rw [SPDAffineMetric.exp, SPDAffineMetric.log]
    set Ph : Mat n := matrix_power P (1 / 2) with hPh
    set Pn : Mat n := matrix_power P (-(1 / 2)) with hPn
    set X : Mat n := Pn * M * Pn with hX
    set L : Mat n := matrix_log X with hL
    have hnh : Pn * Ph = 1 := neg_half_mul_half hP
    have hhn : Ph * Pn = 1 := half_mul_neg_half hP
    have hXpd : X.PosDef := inner_posDef hP hM
    have hmid : Pn * (Ph * L * Ph) * Pn = L := by
      calc Pn * (Ph * L * Ph) * Pn
          = (Pn * Ph) * L * (Ph * Pn) := by
            simp only [Matrix.mul_assoc]
        _ = L := by rw [hnh, hhn, Matrix.one_mul, Matrix.mul_one]
    rw [hmid, matrix_exp_matrix_log hXpd, hX]
    calc Ph * (Pn * M * Pn) * Ph
        = (Ph * Pn) * M * (Pn * Ph) := by
          simp only [Matrix.mul_assoc]
      _ = M := by rw [hhn, hnh, Matrix.one_mul, Matrix.mul_one]
  · rw [SPDLogEuclideanMetric.exp, SPDLogEuclideanMetric.log,
      add_sub_cancel, matrix_exp_matrix_log hM]

/-- Witness for C1 at `P = 1`, `M = 2 • 1` in dimension 2. -/
theorem round_trip_exp_log_witness :
    (1 : Mat 2).PosDef ∧ ((2 : ℝ) • (1 : Mat 2)).PosDef ∧
      SPDAffineMetric.exp 1 (SPDAffineMetric.log 1 ((2 : ℝ) • 1)) =
        ((2 : ℝ) • (1 : Mat 2)) := by
  have h1 : (1 : Mat 2).PosDef := Matrix.PosDef.one
  have h2 : ((2 : ℝ) • (1 : Mat 2)).PosDef := by
    have hd : ((2 : ℝ) • (1 : Mat 2)) = Matrix.diagonal (fun _ => (2 : ℝ)) := by
      ext i j
      rcases eq_or_ne i j with h | h
      · subst h
        simp
      · simp [Matrix.one_apply_ne h, Matrix.diagonal_apply_ne _ h]
    rw [hd]
    exact Matrix.PosDef.diagonal fun _ => by norm_num
  exact ⟨h1, h2, (round_trip_exp_log 1 ((2 : ℝ) • 1) h1 h2).1⟩

/-! ## C3: the log-Euclidean logarithm map -/

/-- **C3.** The log-Euclidean logarithm map satisfies
`log(P, M) = matrix_log(M) − matrix_log(P)`, and the base point enters only
through this subtraction: changing the base point from `P` to `P'` shifts
the result by `matrix_log(P') − matrix_log(P)`, independently of `M`. -/
theorem logEuclidean_log_formula {n : ℕ} (P M : Mat n) :
    SPDLogEuclideanMetric.log P M = matrix_log M - matrix_log P ∧
      ∀ P' : Mat n, SPDLogEuclideanMetric.log P M -
        SPDLogEuclideanMetric.log P' M = matrix_log P' - matrix_log P := by
  refine ⟨rfl, fun P' => ?_⟩
  rw [SPDLogEuclideanMetric.log, SPDLogEuclideanMetric.log]
  abel

/-! ## C4: DomainError on invalid inputs -/

/-- **C4.** Every metric or algebra operation fails with `DomainError` when
an input violates the SPD/symmetry precondition, and the error is returned
to the caller; in particular `matrix_log` on a rank-deficient symmetric
matrix (an eigenvalue exactly `0`) yields `DomainError`, not a numeric
result. -/
theorem domain_error_on_invalid {n : ℕ} (M P : Mat n) :
    (¬ M.PosDef → matrix_log_checked M = .error .notSPD) ∧
      (¬ M.IsHermitian → matrix_exp_checked M = .error .notSPD) ∧
      (∀ p : ℝ, p < 0 → ¬ M.PosDef →
        matrix_power_checked M p = .error .notSPD) ∧
      (¬ (P.PosDef ∧ M.PosDef) →
        checkedOp SPDAffineMetric.log P M = .error .notSPD ∧
          checkedOp SPDAffineMetric.exp P M = .error .notSPD ∧
          checkedOp SPDAffineMetric.squared_distance P M = .error .notSPD ∧
          checkedOp SPDLogEuclideanMetric.log P M = .error .notSPD ∧
          checkedOp SPDLogEuclideanMetric.exp P M = .error .notSPD ∧
          checkedOp SPDLogEuclideanMetric.squared_distance P M =
            .error .notSPD) ∧
      (∀ h : M.IsHermitian, (∃ i, h.eigenvalues i = 0) →
        matrix_log_checked M = .error .notSPD) := by
  refine ⟨fun hM => ?_, fun hM => ?_, fun p hp hM => ?_, fun hPM => ?_,
    fun h ⟨i, hi⟩ => ?_⟩
  · rw [matrix_log_checked, if_neg hM]
  · rw [matrix_exp_checked, if_neg hM]
  · rw [matrix_power_checked, if_neg]
    rintro ⟨-, himp⟩
    exact hM (himp hp)
  · refine ⟨?_, ?_, ?_, ?_, ?_, ?_⟩ <;> rw [checkedOp, if_neg hPM]
  · rw [matrix_log_checked, if_neg]
    intro hpd
    exact absurd hi (hpd.eigenvalues_pos i).ne'

/-- Witness for C4: the rank-deficient symmetric matrix `diag(1, 0)` is
rejected by `matrix_log`. -/
theorem domain_error_on_invalid_witness :
    ¬ (Matrix.diagonal ![(1 : ℝ), 0] : Mat 2).PosDef ∧
      matrix_log_checked (Matrix.diagonal ![(1 : ℝ), 0] : Mat 2) =
        .error .notSPD := by
  have hnot : ¬ (Matrix.diagonal ![(1 : ℝ), 0] : Mat 2).PosDef := by
    rw [Matrix.posDef_diagonal_iff]
    intro h
    have := h 1
    simp at this
  exact ⟨hnot, (domain_error_on_invalid (Matrix.diagonal ![(1 : ℝ), 0]) 1).1 hnot⟩

/-! ## Loop unfolding lemmas for the Fréchet iteration -/

/-- One step of the Fréchet loop when the tangent mean is already below
tolerance: converged, zero iterations. -/
lemma frechetLoop_succ_of_lt {g : MetricOps n} {tol : ℝ} {data : List (Mat n)}
    {fuel : ℕ} {P : Mat n}
    (h : Real.sqrt (frobSq (tangentMean g P data)) < tol) :
    frechetLoop g tol data (fuel + 1) P = (P, 0, true) := by
  simp only [frechetLoop]
  rw [if_pos h]

/-- One step of the Fréchet loop when the tangent mean is not below
tolerance: update and recurse. -/
lemma frechetLoop_succ_of_not_lt {g : MetricOps n} {tol : ℝ}
    {data : List (Mat n)} {fuel : ℕ} {P : Mat n}
    (h : ¬ Real.sqrt (frobSq (tangentMean g P data)) < tol) :
    frechetLoop g tol data (fuel + 1) P =
      ((frechetLoop g tol data fuel (g.exp P (tangentMean g P data))).1,
        (frechetLoop g tol data fuel (g.exp P (tangentMean g P data))).2.1 + 1,
        (frechetLoop g tol data fuel (g.exp P (tangentMean g P data))).2.2) := by
  simp only [frechetLoop]
  rw [if_neg h]

/-- The squared Frobenius norm of the zero matrix vanishes. -/
lemma frobSq_zero : frobSq (0 : Mat n) = 0 := by
  simp [frobSq]

/-- The affine-invariant logarithm map vanishes at the base point. -/
lemma affine_log_self {M : Mat n} (hM : M.PosDef) :
    SPDAffineMetric.log M M = 0 := by
  rw [SPDAffineMetric.log]
  have hinner : matrix_power M (-(1 / 2)) * M * matrix_power M (-(1 / 2)) =
      (1 : Mat n) := by
    calc matrix_power M (-(1 / 2)) * M * matrix_power M (-(1 / 2))
        = matrix_power M (-(1 / 2)) *
            (matrix_power M (1 / 2) * matrix_power M (1 / 2)) *
            matrix_power M (-(1 / 2)) := by rw [half_mul_half hM]
      _ = (matrix_power M (-(1 / 2)) * matrix_power M (1 / 2)) *
            (matrix_power M (1 / 2) * matrix_power M (-(1 / 2))) := by
          simp only [Matrix.mul_assoc]
      _ = 1 := by rw [neg_half_mul_half hM, half_mul_neg_half hM, Matrix.one_mul]
  rw [hinner, matrix_log_one, Matrix.mul_zero, Matrix.zero_mul]

/-- The log-Euclidean logarithm map vanishes at the base point. -/
lemma logEuclidean_log_self (M : Mat n) :
    SPDLogEuclideanMetric.log M M = 0 := by
  rw [SPDLogEuclideanMetric.log, sub_self]

/-! ## C5: hitting the iteration cap is non-fatal -/

/-- **C5.** On any non-empty dataset the Fréchet-mean estimator returns a
result (never an error), and when the iteration cap is exhausted the loop
returns the current best-so-far estimate with the convergence flag `false`
rather than failing. -/
theorem frechet_mean_cap_nonfatal {n : ℕ} (g : MetricOps n) (tol : ℝ)
    (maxIter : ℕ) (data : List (Mat n)) (hne : data ≠ []) :
    (∃ r, FrechetMean g tol maxIter data = .ok r) ∧
      ∀ P : Mat n, frechetLoop g tol data 0 P = (P, 0, false) := by
  refine ⟨?_, fun P => rfl⟩
  match data, hne with
  | (M :: rest), _ => exact ⟨_, rfl⟩

/-- Witness for C5 on a concrete one-element dataset with a zero iteration
cap (the cap is hit immediately and the initial guess is returned). -/
theorem frechet_mean_cap_nonfatal_witness :
    (∃ r, FrechetMean (SPDLogEuclideanMetric.ops 2) 1 0 [(1 : Mat 2)] =
      .ok r) ∧
      frechetLoop (SPDLogEuclideanMetric.ops 2) 1 [(1 : Mat 2)] 0 1 =
        (1, 0, false) := by
  have h := frechet_mean_cap_nonfatal (SPDLogEuclideanMetric.ops 2) 1 0
    [(1 : Mat 2)] (by simp)
  exact ⟨h.1, h.2 1⟩

/-! ## C6: the Fréchet mean of a singleton -/

/-- **C6.** For a single-element dataset `[M]` of one SPD matrix the
Fréchet-mean estimator returns `M` exactly, with zero iterations, under
either metric: the initial guess (the arithmetic mean of the dataset) is
already `M` and the first tangent mean vanishes. -/
theorem frechet_mean_singleton {n : ℕ} (M : Mat n) (hM : M.PosDef)
    (tol : ℝ) (htol : 0 < tol) (maxIter : ℕ) (hiter : 1 ≤ maxIter) :
    FrechetMean (SPDAffineMetric.ops n) tol maxIter [M] = .ok (M, 0, true) ∧
      FrechetMean (SPDLogEuclideanMetric.ops n) tol maxIter [M] =
        .ok (M, 0, true) := by
  obtain ⟨k, rfl⟩ : ∃ k, maxIter = k + 1 := ⟨maxIter - 1, by omega⟩
  have hmean : arithmeticMean [M] = M := by
    rw [arithmeticMean]
    simp
  have htm : ∀ g : MetricOps n, g.log M M = 0 →
      tangentMean g M [M] = 0 := by
    intro g hlog
    rw [tangentMean]
    simp [hlog]
  have hstop : ∀ g : MetricOps n, g.log M M = 0 →
      frechetLoop g tol [M] (k + 1) M = (M, 0, true) := by
    intro g hlog
    refine frechetLoop_succ_of_lt ?_
    rw [htm g hlog, frobSq_zero, Real.sqrt_zero]
    exact htol
  have hFM : ∀ g : MetricOps n, FrechetMean g tol (k + 1) [M] =
      .ok (frechetLoop g tol [M] (k + 1) (arithmeticMean [M])) := fun g => rfl
  constructor
  · rw [hFM, hmean]
    exact congrArg Except.ok (hstop (SPDAffineMetric.ops n) (affine_log_self hM))
  · rw [hFM, hmean]
    exact congrArg Except.ok
      (hstop (SPDLogEuclideanMetric.ops n) (logEuclidean_log_self M))

/-- Witness for C6 at `M = 1` in dimension 2, tolerance 1, cap 1. -/
theorem frechet_mean_singleton_witness :
    (1 : Mat 2).PosDef ∧ (0 : ℝ) < 1 ∧
      FrechetMean (SPDLogEuclideanMetric.ops 2) 1 1 [(1 : Mat 2)] =
        .ok (1, 0, true) := by
  have h1 : (1 : Mat 2).PosDef := Matrix.PosDef.one
  exact ⟨h1, one_pos,
    (frechet_mean_singleton (1 : Mat 2) h1 1 one_pos 1 le_rfl).2⟩

/-! ## List lemmas for the vectorization -/

/-- Pointwise product of two maps over the same index list. -/
lemma zipWith_mul_map {α : Type} (l : List α) (g h : α → ℝ) :
    List.zipWith (· * ·) (l.map g) (l.map h) = l.map fun x => g x * h x := by
  induction l with
  | nil => rfl
  | cons x xs ih => simp [ih]

/-- Pointwise product across an append whose first halves are maps over the
same index list. -/
lemma zipWith_mul_map_append {α : Type} (l : List α) (g h : α → ℝ)
    (a b : List ℝ) :
    List.zipWith (· * ·) (l.map g ++ a) (l.map h ++ b) =
      (l.map fun x => g x * h x) ++ List.zipWith (· * ·) a b := by
  induction l with
  | nil => rfl
  | cons x xs ih => simp [ih]

/-- Pointwise product of two structurally equal flat-maps. -/
lemma zipWith_mul_flatMap_map {α β : Type} (l : List α) (inner : α → List β)
    (u v : α → β → ℝ) :
    List.zipWith (· * ·) (l.flatMap fun x => (inner x).map (u x))
        (l.flatMap fun x => (inner x).map (v x)) =
      l.flatMap fun x => (inner x).map fun y => u x y * v x y := by
  induction l with
  | nil => rfl
  | cons x xs ih =>
    rw [List.flatMap_cons, List.flatMap_cons, List.flatMap_cons,
      zipWith_mul_map_append, ih]

/-- The sum of a flat-map is the sum of the inner sums. -/
lemma sum_flatMap {α : Type} (l : List α) (g : α → List ℝ) :
    (l.flatMap g).sum = (l.map fun x => (g x).sum).sum := by
  induction l with
  | nil => rfl
  | cons x xs ih => rw [List.flatMap_cons, List.sum_append, ih, List.map_cons,
      List.sum_cons]

/-- Summing a map over a filtered list is summing a guarded map. -/
lemma sum_map_filter_eq {α : Type} (l : List α) (p : α → Bool) (f : α → ℝ) :
    ((l.filter p).map f).sum = (l.map fun x => if p x then f x else 0).sum := by
  induction l with
  | nil => rfl
  | cons x xs ih =>
    rw [List.filter_cons]
    by_cases h : p x
    · simp [h, ih]
    · simp [h, ih]

/-- The length of a filtered list as a guarded sum. -/
lemma length_filter_eq_sum_ite {α : Type} (l : List α) (p : α → Bool) :
    (l.filter p).length = (l.map fun x => if p x then 1 else 0).sum := by
  induction l with
  | nil => rfl
  | cons x xs ih =>
    rw [List.filter_cons]
    by_cases h : p x
    · simp [h, ih, Nat.add_comm]
    · simp [h, ih]

/-- Sum of a map over `finRange` as a `Finset` sum. -/
lemma sum_map_finRange (f : Fin n → ℝ) :
    ((List.finRange n).map f).sum = ∑ i, f i :=
  (Fin.sum_univ_def f).symm

/-- Sum of a map over `finRange` as a `Finset` sum, natural-number case. -/
lemma sum_map_finRange_nat (f : Fin n → ℕ) :
    ((List.finRange n).map f).sum = ∑ i, f i :=
  (Fin.sum_univ_def f).symm

/-- The length of the strict upper-triangular row `i`. -/
lemma length_filter_lt (i : Fin n) :
    (((List.finRange n).filter fun j => decide (i < j))).length =
      (Finset.univ.filter fun j => i < j).card := by
  rw [length_filter_eq_sum_ite, sum_map_finRange_nat, Finset.card_filter]
  refine Finset.sum_congr rfl fun j _ => ?_
  by_cases h : i < j
  · simp [h]
  · simp [h]

/-- Iterated filtered sums as a sum over a filtered product. -/
lemma sum_sum_filter_eq_sum_prod (c : Fin n → Fin n → Prop)
    [∀ i j, Decidable (c i j)] (f : Fin n → Fin n → ℝ) :
    (∑ i, ∑ j ∈ Finset.univ.filter fun j => c i j, f i j) =
      ∑ p ∈ (Finset.univ ×ˢ Finset.univ).filter fun p : Fin n × Fin n =>
        c p.1 p.2, f p.1 p.2 := by
  rw [Finset.sum_filter,
    Finset.sum_product' Finset.univ Finset.univ
      fun i j => if c i j then f i j else 0]
  exact Finset.sum_congr rfl fun i _ => Finset.sum_filter _ _

/-- Swapping the coordinates in a sum over the strict lower triangle gives
the sum over the strict upper triangle. -/
lemma sum_prod_filter_swap (f : Fin n → Fin n → ℝ) :
    (∑ p ∈ (Finset.univ ×ˢ Finset.univ).filter
        fun p : Fin n × Fin n => p.2 < p.1, f p.1 p.2) =
      ∑ p ∈ (Finset.univ ×ˢ Finset.univ).filter
        fun p : Fin n × Fin n => p.1 < p.2, f p.2 p.1 := by
  refine Finset.sum_bij' (fun p _ => Prod.swap p) (fun p _ => Prod.swap p)
    ?_ ?_ ?_ ?_ ?_
  · intro p hp
    simp only [Finset.mem_filter, Finset.mem_product] at hp ⊢
    exact ⟨⟨hp.1.2, hp.1.1⟩, hp.2⟩
  · intro p hp
    simp only [Finset.mem_filter, Finset.mem_product] at hp ⊢
    exact ⟨⟨hp.1.2, hp.1.1⟩, hp.2⟩
  · intro p _
    rfl
  · intro p _
    rfl
  · intro p _
    rfl

/-- Iterated filtered cards as the card of a filtered product. -/
lemma sum_card_filter_eq (c : Fin n → Fin n → Prop) [∀ i j, Decidable (c i j)] :
    (∑ i, (Finset.univ.filter fun j => c i j).card) =
      ((Finset.univ ×ˢ Finset.univ).filter fun p : Fin n × Fin n =>
        c p.1 p.2).card := by
  rw [Finset.card_filter,
    Finset.sum_product' Finset.univ Finset.univ
      fun i j => if c i j then 1 else 0]
  exact Finset.sum_congr rfl fun i _ => Finset.card_filter _ _

/-- The strict lower and strict upper triangles of the index square have the
same number of cells. -/
lemma card_lower_eq_card_upper (n : ℕ) :
    ((Finset.univ ×ˢ Finset.univ).filter fun p : Fin n × Fin n =>
        p.2 < p.1).card =
      ((Finset.univ ×ˢ Finset.univ).filter fun p : Fin n × Fin n =>
        p.1 < p.2).card := by
  refine Finset.card_bij' (fun p _ => Prod.swap p) (fun p _ => Prod.swap p)
    ?_ ?_ ?_ ?_
  · intro p hp
    simp only [Finset.mem_filter, Finset.mem_product] at hp ⊢
    exact ⟨⟨hp.1.2, hp.1.1⟩, hp.2⟩
  · intro p hp
    simp only [Finset.mem_filter, Finset.mem_product] at hp ⊢
    exact ⟨⟨hp.1.2, hp.1.1⟩, hp.2⟩
  · intro p _
    rfl
  · intro p _
    rfl

/-- Cell count of the index square: diagonal plus the two strict
triangles. -/
lemma card_square_decomp (n : ℕ) :
    n + (((Finset.univ ×ˢ Finset.univ).filter fun p : Fin n × Fin n =>
        p.1 < p.2).card +
      ((Finset.univ ×ˢ Finset.univ).filter fun p : Fin n × Fin n =>
        p.2 < p.1).card) = n * n := by
  classical
  have htot : ((Finset.univ ×ˢ Finset.univ).filter fun p : Fin n × Fin n =>
        p.1 = p.2).card +
      ((Finset.univ ×ˢ Finset.univ).filter fun p : Fin n × Fin n =>
        ¬ p.1 = p.2).card = n * n := by
    rw [Finset.filter_card_add_filter_neg_card_eq_card, Finset.card_product]
    simp
  have hdiag : ((Finset.univ ×ˢ Finset.univ).filter fun p : Fin n × Fin n =>
      p.1 = p.2).card = n := by
    rw [← sum_card_filter_eq fun i j => i = j]
    have : ∀ i : Fin n, (Finset.univ.filter fun j => i = j).card = 1 := by
      intro i
      rw [Finset.filter_eq]
      simp
    simp [this]
  have hsplit : ((Finset.univ ×ˢ Finset.univ).filter fun p : Fin n × Fin n =>
        ¬ p.1 = p.2).card =
      ((Finset.univ ×ˢ Finset.univ).filter fun p : Fin n × Fin n =>
        p.1 < p.2).card +
      ((Finset.univ ×ˢ Finset.univ).filter fun p : Fin n × Fin n =>
        p.2 < p.1).card := by
    have e1 : ((Finset.univ ×ˢ Finset.univ).filter
          (fun p : Fin n × Fin n => ¬ p.1 = p.2)).filter
            (fun p => p.1 < p.2) =
        (Finset.univ ×ˢ Finset.univ).filter
          fun p : Fin n × Fin n => p.1 < p.2 := by
      rw [Finset.filter_filter]
      apply Finset.filter_congr
      intro p _
      simp only [Fin.lt_iff_val_lt_val, Fin.ext_iff]
      omega
    have e2 : ((Finset.univ ×ˢ Finset.univ).filter
          (fun p : Fin n × Fin n => ¬ p.1 = p.2)).filter
            (fun p => ¬ p.1 < p.2) =
        (Finset.univ ×ˢ Finset.univ).filter
          fun p : Fin n × Fin n => p.2 < p.1 := by
      rw [Finset.filter_filter]
      apply Finset.filter_congr
      intro p _
      simp only [Fin.lt_iff_val_lt_val, Fin.ext_iff]
      omega
    rw [← Finset.filter_card_add_filter_neg_card_eq_card
      (s := (Finset.univ ×ˢ Finset.univ).filter
        fun p : Fin n × Fin n => ¬ p.1 = p.2) (p := fun p => p.1 < p.2),
      e1, e2]
  omega

/-- The number of strict upper-triangular cells, counted row by row. -/
lemma sum_card_upper (n : ℕ) :
    n + 2 * (∑ i : Fin n, (Finset.univ.filter fun j => i < j).card) =
      n * n := by
  have h := card_square_decomp n
  rw [sum_card_filter_eq fun i j => i < j]
  rw [card_lower_eq_card_upper n] at h
  omega

/-- The length of `vectorize S` is `n(n+1)/2`. -/
lemma vectorize_length (S : Mat n) :
    (vectorize S).length = n * (n + 1) / 2 := by
  have hoff : (((List.finRange n).flatMap fun i =>
      (((List.finRange n).filter fun j => decide (i < j)).map
        fun j => Real.sqrt 2 * S i j))).length =
      ∑ i : Fin n, (Finset.univ.filter fun j => i < j).card := by
    rw [List.length_flatMap]
    have hm : (List.map
        (List.length ∘ fun i => (((List.finRange n).filter
          fun j => decide (i < j)).map fun j => Real.sqrt 2 * S i j))
        (List.finRange n)) =
        List.map (fun i : Fin n =>
          (Finset.univ.filter fun j => i < j).card) (List.finRange n) := by
      apply List.map_congr_left
      intro i _
      rw [Function.comp_apply, List.length_map, length_filter_lt]
    rw [hm, sum_map_finRange_nat]
  rw [vectorize, List.length_append, List.length_map, List.length_finRange,
    hoff]
  have h := sum_card_upper n
  have hmul : n * (n + 1) = n * n + n := by ring
  omega

/-- The length of the loader's diagonal-free flattening is `n(n−1)/2`. -/
lemma flatVectorize_length (S : Mat n) :
    (flatVectorize S).length = n * (n - 1) / 2 := by
  have hoff : (flatVectorize S).length =
      ∑ i : Fin n, (Finset.univ.filter fun j => i < j).card := by
    rw [flatVectorize, List.length_flatMap]
    have hm : (List.map
        (List.length ∘ fun i => (((List.finRange n).filter
          fun j => decide (i < j)).map fun j => S i j))
        (List.finRange n)) =
        List.map (fun i : Fin n =>
          (Finset.univ.filter fun j => i < j).card) (List.finRange n) := by
      apply List.map_congr_left
      intro i _
      rw [Function.comp_apply, List.length_map, length_filter_lt]
    rw [hm, sum_map_finRange_nat]
  rw [hoff]
  have h := sum_card_upper n
  have hmul : n * (n - 1) + n = n * n := by
    cases n with
    | zero => rfl
    | succ m =>
      simp only [Nat.succ_sub_one]
      ring
  omega

/-- Decomposition of a symmetric double sum into its diagonal and twice its
strict upper triangle. -/
lemma double_sum_symm_decomp (f : Fin n → Fin n → ℝ)
    (hf : ∀ i j, f i j = f j i) :
    ∑ i, ∑ j, f i j =
      (∑ i, f i i) +
        ∑ i, ∑ j ∈ Finset.univ.filter fun j => i < j, 2 * f i j := by
  classical
  rw [← Finset.sum_product' Finset.univ Finset.univ f,
    ← Finset.sum_filter_add_sum_filter_not (Finset.univ ×ˢ Finset.univ)
      (fun p : Fin n × Fin n => p.1 = p.2)]
  have hdiag : ∑ p ∈ (Finset.univ ×ˢ Finset.univ).filter
      (fun p : Fin n × Fin n => p.1 = p.2), f p.1 p.2 = ∑ i, f i i := by
    rw [Finset.sum_filter,
      Finset.sum_product' Finset.univ Finset.univ
        fun i j => if i = j then f i j else 0]
    refine Finset.sum_congr rfl fun i _ => ?_
    rw [Finset.sum_ite_eq]
    simp
  have hsplit : ∑ p ∈ (Finset.univ ×ˢ Finset.univ).filter
        (fun p : Fin n × Fin n => ¬ p.1 = p.2), f p.1 p.2 =
      (∑ p ∈ (Finset.univ ×ˢ Finset.univ).filter
        (fun p : Fin n × Fin n => p.1 < p.2), f p.1 p.2) +
      ∑ p ∈ (Finset.univ ×ˢ Finset.univ).filter
        (fun p : Fin n × Fin n => p.2 < p.1), f p.1 p.2 := by
    rw [← Finset.sum_filter_add_sum_filter_not
      ((Finset.univ ×ˢ Finset.univ).filter
        fun p : Fin n × Fin n => ¬ p.1 = p.2) (fun p => p.1 < p.2)]
    congr 1
    · rw [Finset.filter_filter]
      apply Finset.sum_congr _ fun p _ => rfl
      apply Finset.filter_congr
      intro p _
      simp only [Fin.lt_iff_val_lt_val, Fin.ext_iff]
      omega
    · rw [Finset.filter_filter]
      apply Finset.sum_congr _ fun p _ => rfl
      apply Finset.filter_congr
      intro p _
      simp only [Fin.lt_iff_val_lt_val, Fin.ext_iff]
      omega
  rw [hdiag, hsplit, sum_prod_filter_swap]
  have hswap : ∑ p ∈ (Finset.univ ×ˢ Finset.univ).filter
      (fun p : Fin n × Fin n => p.1 < p.2), f p.2 p.1 =
      ∑ p ∈ (Finset.univ ×ˢ Finset.univ).filter
        (fun p : Fin n × Fin n => p.1 < p.2), f p.1 p.2 :=
    Finset.sum_congr rfl fun p _ => hf p.2 p.1
  rw [hswap, ← two_mul, Finset.mul_sum,
    ← sum_sum_filter_eq_sum_prod (fun i j => i < j) fun i j => 2 * f i j]

/-- The Euclidean inner product of two vectorized symmetric matrices as a
diagonal-plus-upper-triangle sum. -/
lemma dotList_vectorize (S T : Mat n) :
    dotList (vectorize S) (vectorize T) =
      (∑ i, S i i * T i i) +
        ∑ i, ∑ j ∈ Finset.univ.filter fun j => i < j,
          2 * (S i j * T i j) := by
  rw [dotList, vectorize, vectorize, zipWith_mul_map_append,
    zipWith_mul_flatMap_map, List.sum_append, sum_map_finRange, sum_flatMap]
  congr 1
  have hm : (List.map (fun i => ((((List.finRange n).filter
      fun j => decide (i < j)).map
        fun y => Real.sqrt 2 * S i y * (Real.sqrt 2 * T i y))).sum)
      (List.finRange n)) =
      List.map (fun i : Fin n => ∑ j ∈ Finset.univ.filter fun j => i < j,
        2 * (S i j * T i j)) (List.finRange n) := by
    apply List.map_congr_left
    intro i _
    rw [sum_map_filter_eq, sum_map_finRange, Finset.sum_filter]
    refine Finset.sum_congr rfl fun j _ => ?_
    by_cases h : i < j
    · simp only [decide_eq_true_eq, h, if_true]
      have h2 : Real.sqrt 2 * Real.sqrt 2 = 2 :=
        Real.mul_self_sqrt (by norm_num)
      calc Real.sqrt 2 * S i j * (Real.sqrt 2 * T i j)
          = (Real.sqrt 2 * Real.sqrt 2) * (S i j * T i j) := by ring
        _ = 2 * (S i j * T i j) := by rw [h2]
    · simp [h]
  rw [hm, sum_map_finRange]

/-! ## C7: vectorization preserves the Frobenius inner product -/

/-- **C7.** For every symmetric `n×n` matrix, `vectorize` returns a
length-`n(n+1)/2` vector (diagonal, then `√2`-scaled strict upper
triangle), and for symmetric `S`, `T` the Euclidean inner product of the
vectorizations equals the Frobenius inner product of the matrices. -/
theorem vectorize_isometry {n : ℕ} (S T : Mat n) (hS : S.IsSymm)
    (hT : T.IsSymm) :
    (vectorize S).length = n * (n + 1) / 2 ∧
      dotList (vectorize S) (vectorize T) = frobInner S T := by
  refine ⟨vectorize_length S, ?_⟩
  rw [dotList_vectorize, frobInner]
  have hf : ∀ i j : Fin n, S i j * T i j = S j i * T j i := by
    intro i j
    have hSij : S j i = S i j := by
      conv_lhs => rw [← hS]
      rfl
    have hTij : T j i = T i j := by
      conv_lhs => rw [← hT]
      rfl
    rw [hSij, hTij]
  exact (double_sum_symm_decomp (fun i j => S i j * T i j) hf).symm

/-- Witness for C7 at the pair of identity matrices in dimension 2. -/
theorem vectorize_isometry_witness :
    (1 : Mat 2).IsSymm ∧
      dotList (vectorize (1 : Mat 2)) (vectorize (1 : Mat 2)) =
        frobInner (1 : Mat 2) (1 : Mat 2) := by
  have h1 : (1 : Mat 2).IsSymm := Matrix.isSymm_one
  exact ⟨h1, (vectorize_isometry (1 : Mat 2) (1 : Mat 2) h1 h1).2⟩

/-! ## C2: the shape and content of `transform` -/

/-- **C2.** For every embedder over `28×28` SPD matrices with a stored mean,
`transform` maps each dataset element `M` to exactly
`vectorize(metric.log(mean, M))`, one output row per input element, and
every output row has length `28·29/2 = 406`. -/
theorem transform_formula (e : ToTangentSpace 28) (mean : Mat 28)
    (data : List (Mat 28)) :
    e.transform mean data =
        data.map (fun M => vectorize (e.metric.log mean M)) ∧
      (e.transform mean data).length = data.length ∧
      ∀ v ∈ e.transform mean data, v.length = 406 := by
  refine ⟨rfl, ?_, ?_⟩
  · rw [ToTangentSpace.transform, List.length_map]
  · intro v hv
    rw [ToTangentSpace.transform] at hv
    obtain ⟨M, -, rfl⟩ := List.mem_map.mp hv
    rw [vectorize_length]

/-- Witness for C2 on the singleton dataset `[1]` with stored mean `1`. -/
theorem transform_formula_witness :
    ((ToTangentSpace.mk (SPDLogEuclideanMetric.ops 28) 1 1).transform 1
        [(1 : Mat 28)]).length = 1 ∧
      (vectorize ((SPDLogEuclideanMetric.ops 28).log 1 (1 : Mat 28))).length =
        406 := by
  have h := transform_formula ⟨SPDLogEuclideanMetric.ops 28, 1, 1⟩ 1
    [(1 : Mat 28)]
  refine ⟨h.2.1.trans rfl, ?_⟩
  apply h.2.2
  simp [ToTangentSpace.transform]

/-! ## C10: baseline flattening vs tangent features -/

/-- **C10.** The loader's diagonal-free flattening of a `28×28` connectome
has length `28·27/2 = 378`, strictly smaller than the `406`-dimensional
tangent feature vectors produced by `vectorize`: the two flattenings live
in spaces of different dimension. -/
theorem flat_vs_tangent_dimension (S T : Mat 28) :
    (flatVectorize S).length = 378 ∧ (vectorize T).length = 406 ∧
      (flatVectorize S).length < (vectorize T).length := by
  have h1 : (flatVectorize S).length = 378 := by
    rw [flatVectorize_length]
  have h2 : (vectorize T).length = 406 := by
    rw [vectorize_length]
  exact ⟨h1, h2, by rw [h1, h2]; norm_num⟩

/-! ## Further spectral identities for the distance symmetry -/

/-- The functional-calculus inverse agrees with the matrix inverse on
positive-definite matrices. -/
lemma cfc_inv_eq {P : Mat n} (hP : P.PosDef) :
    cfc (fun x : ℝ => x⁻¹) P = P⁻¹ := by
  have hone : cfc (fun x : ℝ => x⁻¹) P * P = 1 := by
    calc cfc (fun x : ℝ => x⁻¹) P * P
        = cfc (fun x : ℝ => x⁻¹) P * cfc (id : ℝ → ℝ) P := by
          rw [cfc_id ℝ P hP.isHermitian.isSelfAdjoint]
      _ = cfc (fun x : ℝ => x⁻¹ * x) P :=
          (cfc_mul _ _ P (continuousOn_spectrum _ P)
            (continuousOn_spectrum _ P)).symm
      _ = cfc (fun _ : ℝ => (1 : ℝ)) P :=
          cfc_congr fun x hx => inv_mul_cancel₀ (spec_pos hP x hx).ne'
      _ = 1 := cfc_const_one ℝ P hP.isHermitian.isSelfAdjoint
  exact (Matrix.inv_eq_left_inv hone).symm

/-- `P^{-1/2} · P^{-1/2} = P⁻¹` for positive-definite `P`. -/
lemma neg_half_sq {P : Mat n} (hP : P.PosDef) :
    matrix_power P (-(1 / 2)) * matrix_power P (-(1 / 2)) = P⁻¹ := by
  rw [matrix_power_mul_matrix_power hP]
  have he : (-(1 / 2) + -(1 / 2) : ℝ) = -1 := by norm_num
  rw [he, matrix_power]
  have hfun : (fun x : ℝ => x ^ (-1 : ℝ)) = fun x : ℝ => x⁻¹ :=
    funext fun x => Real.rpow_neg_one x
  rw [hfun, cfc_inv_eq hP]

/-- `M · M^{-1/2} = M^{1/2}` for positive-definite `M`. -/
lemma self_mul_neg_half {M : Mat n} (hM : M.PosDef) :
    M * matrix_power M (-(1 / 2)) = matrix_power M (1 / 2) := by
  calc M * matrix_power M (-(1 / 2))
      = matrix_power M 1 * matrix_power M (-(1 / 2)) := by
        rw [matrix_power_one_exp hM]
    _ = matrix_power M (1 + -(1 / 2)) := matrix_power_mul_matrix_power hM _ _
    _ = matrix_power M (1 / 2) := by norm_num

/-- The matrix logarithm of the inverse is the negated logarithm. -/
lemma matrix_log_inv {X : Mat n} (hX : X.PosDef) :
    matrix_log X⁻¹ = - matrix_log X := by
  rw [← cfc_inv_eq hX, matrix_log,
    ← cfc_comp Real.log (fun x : ℝ => x⁻¹) X hX.isHermitian.isSelfAdjoint
      (continuousOn_image_spectrum _ _ X) (continuousOn_spectrum _ X)]
  calc cfc (Real.log ∘ fun x : ℝ => x⁻¹) X
      = cfc (fun x : ℝ => - Real.log x) X :=
        cfc_congr fun x _ => Real.log_inv x
    _ = - cfc Real.log X := cfc_neg Real.log X

/-- Negation preserves the squared Frobenius norm. -/
lemma frobSq_neg (A : Mat n) : frobSq (-A) = frobSq A := by
  simp [frobSq]

/-- The squared Frobenius norm of a symmetric matrix is the trace of its
square. -/
lemma frobSq_eq_trace_mul_self {Y : Mat n} (hY : Y.IsHermitian) :
    frobSq Y = (Y * Y).trace := by
  rw [frobSq, Matrix.trace]
  refine Finset.sum_congr rfl fun i _ => ?_
  rw [Matrix.diag_apply, Matrix.mul_apply]
  refine Finset.sum_congr rfl fun j _ => ?_
  have hji : Y j i = Y i j := by
    have h := hY.apply i j
    rwa [star_trivial] at h
  rw [hji, pow_two]

/-- The squared Frobenius norm of `matrix_log X` as a trace in the
functional calculus of `X`. -/
lemma frobSq_matrix_log (X : Mat n) :
    frobSq (matrix_log X) =
      (cfc (fun x : ℝ => Real.log x * Real.log x) X).trace := by
  have hmul : cfc (fun x : ℝ => Real.log x * Real.log x) X =
      matrix_log X * matrix_log X :=
    cfc_mul Real.log Real.log X (continuousOn_spectrum _ X)
      (continuousOn_spectrum _ X)
  have hY : (matrix_log X).IsHermitian :=
    isHermitian_of_isSelfAdjoint (cfc_predicate Real.log X)
  rw [hmul, frobSq_eq_trace_mul_self hY]

/-- `aeval` commutes with conjugation by a unit. -/
lemma aeval_units_conj (u : (Mat n)ˣ) (a : Mat n) (q : Polynomial ℝ) :
    Polynomial.aeval ((↑u : Mat n) * a * (↑u⁻¹ : Mat n)) q =
      (↑u : Mat n) * Polynomial.aeval a q * (↑u⁻¹ : Mat n) := by
  induction q using Polynomial.induction_on with
  | h_C r =>
    simp only [Polynomial.aeval_C]
    rw [Algebra.algebraMap_eq_smul_one]
    calc (r • (1 : Mat n)) = r • ((↑u : Mat n) * (↑u⁻¹ : Mat n)) := by
          rw [Units.mul_inv]
      _ = (↑u : Mat n) * (r • (1 : Mat n)) * (↑u⁻¹ : Mat n) := by
          rw [mul_smul_comm, smul_mul_assoc, Matrix.mul_one]
  | h_add q₁ q₂ hq₁ hq₂ =>
    simp only [map_add, hq₁, hq₂, Matrix.mul_add, Matrix.add_mul]
  | h_monomial k r _ =>
    simp only [Polynomial.aeval_mul, Polynomial.aeval_C, Polynomial.aeval_X_pow]
    rw [Units.conj_pow u a (k + 1), Algebra.algebraMap_eq_smul_one]
    simp only [smul_mul_assoc, mul_smul_comm, Matrix.one_mul]

/-- The trace of a function of a matrix is invariant under conjugating the
matrix by a unit, as long as both conjugates are symmetric: the function is
interpolated by a polynomial on the common (finite) spectrum, and traces of
polynomials are similarity-invariant. -/
lemma trace_cfc_units_conj (g : ℝ → ℝ) (u : (Mat n)ˣ) (a : Mat n)
    (ha : IsSelfAdjoint a)
    (hb : IsSelfAdjoint ((↑u : Mat n) * a * (↑u⁻¹ : Mat n))) :
    (cfc g ((↑u : Mat n) * a * (↑u⁻¹ : Mat n))).trace = (cfc g a).trace := by
  have hspec : spectrum ℝ ((↑u : Mat n) * a * (↑u⁻¹ : Mat n)) = spectrum ℝ a :=
    spectrum.units_conjugate
  have hfin : (spectrum ℝ a).Finite := Matrix.finite_real_spectrum
  have hinj : Set.InjOn (fun x : ℝ => x) hfin.toFinset := fun x _ y _ h => h
  have heval : ∀ x ∈ spectrum ℝ a, g x =
      (Lagrange.interpolate hfin.toFinset (fun x : ℝ => x) g).eval x := by
    intro x hx
    have hxs : x ∈ hfin.toFinset := hfin.mem_toFinset.mpr hx
    exact (Lagrange.eval_interpolate_at_node g hinj hxs).symm
  have h1 : cfc g ((↑u : Mat n) * a * (↑u⁻¹ : Mat n)) =
      Polynomial.aeval ((↑u : Mat n) * a * (↑u⁻¹ : Mat n))
        (Lagrange.interpolate hfin.toFinset (fun x : ℝ => x) g) := by
    rw [cfc_congr fun x hx => heval x (hspec ▸ hx),
      cfc_polynomial _ _ hb]
  have h2 : cfc g a =
      Polynomial.aeval a
        (Lagrange.interpolate hfin.toFinset (fun x : ℝ => x) g) := by
    rw [cfc_congr fun x hx => heval x hx, cfc_polynomial _ _ ha]
  rw [h1, h2, aeval_units_conj, Matrix.trace_mul_cycle, Units.inv_mul,
    Matrix.one_mul]

/-! ## C8: symmetry of the squared distance -/

/-- **C8.** For all SPD matrices `P` and `M`, under both the
affine-invariant and the log-Euclidean metric,
`squared_distance(P, M) = squared_distance(M, P)`. -/
theorem squared_distance_symmetric {n : ℕ} (P M : Mat n) (hP : P.PosDef)
    (hM : M.PosDef) :
    SPDAffineMetric.squared_distance P M =
        SPDAffineMetric.squared_distance M P ∧
      SPDLogEuclideanMetric.squared_distance P M =
        SPDLogEuclideanMetric.squared_distance M P := by
  constructor
  · set Ph : Mat n := matrix_power P (1 / 2) with hPhd
    set Pn : Mat n := matrix_power P (-(1 / 2)) with hPnd
    set Mh : Mat n := matrix_power M (1 / 2) with hMhd
    set Mn : Mat n := matrix_power M (-(1 / 2)) with hMnd
    have hu1 : (Mh * Pn) * (Ph * Mn) = 1 := by
      calc (Mh * Pn) * (Ph * Mn) = Mh * ((Pn * Ph) * Mn) := by
            simp only [Matrix.mul_assoc]
        _ = Mh * ((1 : Mat n) * Mn) := by rw [neg_half_mul_half hP]
        _ = 1 := by rw [Matrix.one_mul, half_mul_neg_half hM]
    have hu2 : (Ph * Mn) * (Mh * Pn) = 1 := by
      calc (Ph * Mn) * (Mh * Pn) = Ph * ((Mn * Mh) * Pn) := by
            simp only [Matrix.mul_assoc]
        _ = Ph * ((1 : Mat n) * Pn) := by rw [neg_half_mul_half hM]
        _ = 1 := by rw [Matrix.one_mul, half_mul_neg_half hP]
    set u : (Mat n)ˣ := ⟨Mh * Pn, Ph * Mn, hu1, hu2⟩ with hud
    have hX₁ : (Pn * M * Pn).PosDef := inner_posDef hP hM
    have hX' : (Mn * P * Mn).PosDef := inner_posDef hM hP
    have hconj : (↑u : Mat n) * (Pn * M * Pn) * (↑u⁻¹ : Mat n) =
        Mh * P⁻¹ * Mh := by
      show (Mh * Pn) * (Pn * M * Pn) * (Ph * Mn) = Mh * P⁻¹ * Mh
      calc (Mh * Pn) * (Pn * M * Pn) * (Ph * Mn)
          = Mh * ((Pn * Pn) * (M * ((Pn * Ph) * Mn))) := by
            simp only [Matrix.mul_assoc]
        _ = Mh * (P⁻¹ * (M * ((Pn * Ph) * Mn))) := by rw [neg_half_sq hP]
        _ = Mh * (P⁻¹ * (M * ((1 : Mat n) * Mn))) := by
            rw [neg_half_mul_half hP]
        _ = Mh * (P⁻¹ * (M * Mn)) := by rw [Matrix.one_mul]
        _ = Mh * (P⁻¹ * Mh) := by rw [self_mul_neg_half hM]
        _ = Mh * P⁻¹ * Mh := by rw [Matrix.mul_assoc]
    have hX₂pd : ((↑u : Mat n) * (Pn * M * Pn) * (↑u⁻¹ : Mat n)).PosDef := by
      rw [hconj]
      have h := posDef_conj hP.inv (matrix_power_posDef hM (1 / 2)).isUnit
      rwa [(matrix_power_isHermitian M (1 / 2)).eq] at h
    have hX'eq : Mn * P * Mn =
        ((↑u : Mat n) * (Pn * M * Pn) * (↑u⁻¹ : Mat n))⁻¹ := by
      symm
      apply Matrix.inv_eq_right_inv
      rw [hconj]
      calc (Mh * P⁻¹ * Mh) * (Mn * P * Mn)
          = Mh * (P⁻¹ * ((Mh * Mn) * (P * Mn))) := by
            simp only [Matrix.mul_assoc]
        _ = Mh * (P⁻¹ * ((1 : Mat n) * (P * Mn))) := by
            rw [half_mul_neg_half hM]
        _ = Mh * ((P⁻¹ * P) * Mn) := by
            rw [Matrix.one_mul, Matrix.mul_assoc]
        _ = Mh * ((1 : Mat n) * Mn) := by
            rw [Matrix.nonsing_inv_mul P hP.det_pos.ne'.isUnit]
        _ = 1 := by rw [Matrix.one_mul, half_mul_neg_half hM]
    show frobSq (matrix_log (Pn * M * Pn)) = frobSq (matrix_log (Mn * P * Mn))
    calc frobSq (matrix_log (Pn * M * Pn))
        = (cfc (fun x : ℝ => Real.log x * Real.log x)
            (Pn * M * Pn)).trace := frobSq_matrix_log _
      _ = (cfc (fun x : ℝ => Real.log x * Real.log x)
            ((↑u : Mat n) * (Pn * M * Pn) * (↑u⁻¹ : Mat n))).trace :=
          (trace_cfc_units_conj _ u _ hX₁.isHermitian.isSelfAdjoint
            hX₂pd.isHermitian.isSelfAdjoint).symm
      _ = frobSq (matrix_log
            ((↑u : Mat n) * (Pn * M * Pn) * (↑u⁻¹ : Mat n))) :=
          (frobSq_matrix_log _).symm
      _ = frobSq (- matrix_log
            ((↑u : Mat n) * (Pn * M * Pn) * (↑u⁻¹ : Mat n))) :=
          (frobSq_neg _).symm
      _ = frobSq (matrix_log
            (((↑u : Mat n) * (Pn * M * Pn) * (↑u⁻¹ : Mat n))⁻¹)) := by
          rw [matrix_log_inv hX₂pd]
      _ = frobSq (matrix_log (Mn * P * Mn)) := by rw [← hX'eq]
  · show frobSq (matrix_log M - matrix_log P) =
      frobSq (matrix_log P - matrix_log M)
    have hns : matrix_log M - matrix_log P =
        -(matrix_log P - matrix_log M) := (neg_sub _ _).symm
    rw [hns, frobSq_neg]

/-- Witness for C8 at `P = 1`, `M = 2 • 1` in dimension 2. -/
theorem squared_distance_symmetric_witness :
    (1 : Mat 2).PosDef ∧
      SPDAffineMetric.squared_distance 1 ((2 : ℝ) • (1 : Mat 2)) =
        SPDAffineMetric.squared_distance ((2 : ℝ) • (1 : Mat 2)) 1 := by
  have h1 : (1 : Mat 2).PosDef := Matrix.PosDef.one
  have h2 : ((2 : ℝ) • (1 : Mat 2)).PosDef := by
    have hd : ((2 : ℝ) • (1 : Mat 2)) = Matrix.diagonal (fun _ => (2 : ℝ)) := by
      ext i j
      rcases eq_or_ne i j with h | h
      · subst h
        simp
      · simp [Matrix.one_apply_ne h, Matrix.diagonal_apply_ne _ h]
    rw [hd]
    exact Matrix.PosDef.diagonal fun _ => by norm_num
  exact ⟨h1, (squared_distance_symmetric 1 ((2 : ℝ) • 1) h1 h2).1⟩

/-! ## Scalar-matrix computations for the end-to-end scenario -/

/-- Logarithm of a scalar matrix. -/
lemma matrix_log_smul_one (c : ℝ) :
    matrix_log (c • (1 : Mat n)) = Real.log c • (1 : Mat n) := by
  rw [matrix_log, cfc_smul_one]

/-- Exponential of a scalar matrix. -/
lemma matrix_exp_smul_one (c : ℝ) :
    matrix_exp (c • (1 : Mat n)) = Real.exp c • (1 : Mat n) := by
  rw [matrix_exp, cfc_smul_one]

/-- Squared Frobenius norm of a scalar `2×2` matrix. -/
lemma frobSq_smul_one (c : ℝ) : frobSq (c • (1 : Mat 2)) = 2 * c ^ 2 := by
  simp [frobSq, Fin.sum_univ_two, Matrix.one_apply, mul_pow]

/-- Scalar `2×2` matrices written out entrywise. -/
lemma smul_one_eq_matrix (c : ℝ) :
    c • (1 : Mat 2) = !![c, 0; 0, c] := by
  ext i j
  fin_cases i <;> fin_cases j <;> simp [Matrix.one_apply]

/-- A quantitative lower bound on `log(9/8)`. -/
lemma log_nine_eighths_ge : (1 / 9 : ℝ) ≤ Real.log ((9 : ℝ) / 8) := by
  have h89 : Real.log ((8 : ℝ) / 9) ≤ (8 : ℝ) / 9 - 1 :=
    Real.log_le_sub_one_of_pos (by norm_num)
  have hinv : Real.log ((8 : ℝ) / 9) = - Real.log ((9 : ℝ) / 8) := by
    rw [show ((8 : ℝ) / 9) = ((9 : ℝ) / 8)⁻¹ by norm_num, Real.log_inv]
  rw [hinv] at h89
  linarith

/-- `log(9/8)` expressed through `log(3/2)` and `log 2`. -/
lemma log_nine_eighths_eq :
    Real.log ((9 : ℝ) / 8) = 2 * Real.log ((3 : ℝ) / 2) - Real.log 2 := by
  rw [show ((9 : ℝ) / 8) = ((3 : ℝ) / 2) ^ 2 / 2 by norm_num,
    Real.log_div (by positivity) (by norm_num), Real.log_pow]
  push_cast
  ring

/-! ## C9: the end-to-end log-Euclidean scenario -/

/-- **C9.** For the dataset of the two `2×2` SPD matrices
`M₁ = [[2,0],[0,2]]` and `M₂ = [[1,0],[0,1]]` under the log-Euclidean
metric (with a positive tolerance at most `1/100` and an iteration cap of
at least `2`), the Fréchet-mean estimator returns exactly
`matrix_exp((log M₁ + log M₂)/2) = [[√2,0],[0,√2]]` (converging after one
update step), and `transform` yields the vectorizations of plus and minus
half the log-difference — a symmetric tangent matrix — each a vector of
length `3`. -/
theorem end_to_end_logEuclidean (tol : ℝ) (htol : 0 < tol)
    (htol' : tol ≤ 1 / 100) (maxIter : ℕ) (hiter : 2 ≤ maxIter) :
    FrechetMean (SPDLogEuclideanMetric.ops 2) tol maxIter
        [!![(2 : ℝ), 0; 0, 2], !![(1 : ℝ), 0; 0, 1]] =
      .ok (Real.sqrt 2 • (1 : Mat 2), 1, true) ∧
    Real.sqrt 2 • (1 : Mat 2) = !![Real.sqrt 2, 0; 0, Real.sqrt 2] ∧
    Real.sqrt 2 • (1 : Mat 2) =
      matrix_exp ((2 : ℝ)⁻¹ • (matrix_log !![(2 : ℝ), 0; 0, 2] +
        matrix_log !![(1 : ℝ), 0; 0, 1])) ∧
    (ToTangentSpace.mk (SPDLogEuclideanMetric.ops 2) tol maxIter).transform
        (Real.sqrt 2 • (1 : Mat 2))
        [!![(2 : ℝ), 0; 0, 2], !![(1 : ℝ), 0; 0, 1]] =
      [vectorize ((2 : ℝ)⁻¹ • (matrix_log !![(2 : ℝ), 0; 0, 2] -
          matrix_log !![(1 : ℝ), 0; 0, 1])),
        vectorize (-((2 : ℝ)⁻¹ • (matrix_log !![(2 : ℝ), 0; 0, 2] -
          matrix_log !![(1 : ℝ), 0; 0, 1])))] ∧
    ((2 : ℝ)⁻¹ • (matrix_log !![(2 : ℝ), 0; 0, 2] -
      matrix_log !![(1 : ℝ), 0; 0, 1])).IsSymm ∧
    ∀ V : Mat 2, (vectorize V).length = 3 := by
  have hM1 : !![(2 : ℝ), 0; 0, 2] = (2 : ℝ) • (1 : Mat 2) :=
    (smul_one_eq_matrix 2).symm
  have hM2 : !![(1 : ℝ), 0; 0, 1] = (1 : ℝ) • (1 : Mat 2) :=
    (smul_one_eq_matrix 1).symm
  have hlog1 : matrix_log !![(2 : ℝ), 0; 0, 2] =
      Real.log 2 • (1 : Mat 2) := by rw [hM1, matrix_log_smul_one]
  have hlog2 : matrix_log !![(1 : ℝ), 0; 0, 1] = 0 := by
    rw [hM2, matrix_log_smul_one, Real.log_one, zero_smul]
  -- the closed-form mean
  have hhalf : Real.exp (Real.log 2 / 2) = Real.sqrt 2 := by
    rw [← Real.log_sqrt (by norm_num : (0 : ℝ) ≤ 2),
      Real.exp_log (Real.sqrt_pos.mpr (by norm_num))]
  have hclosed : matrix_exp ((2 : ℝ)⁻¹ • (matrix_log !![(2 : ℝ), 0; 0, 2] +
      matrix_log !![(1 : ℝ), 0; 0, 1])) = Real.sqrt 2 • (1 : Mat 2) := by
    rw [hlog1, hlog2, add_zero, smul_smul, matrix_exp_smul_one]
    rw [show ((2 : ℝ)⁻¹ * Real.log 2) = Real.log 2 / 2 by ring, hhalf]
  -- the initial guess
  have hmean : arithmeticMean [!![(2 : ℝ), 0; 0, 2], !![(1 : ℝ), 0; 0, 1]] =
      (3 / 2 : ℝ) • (1 : Mat 2) := by
    rw [arithmeticMean, hM1, hM2]
    simp only [List.sum_cons, List.sum_nil, add_zero, List.length_cons,
      List.length_nil]
    rw [← add_smul, smul_smul]
    norm_num
  -- the first tangent mean
  have hlog32 : matrix_log ((3 / 2 : ℝ) • (1 : Mat 2)) =
      Real.log ((3 : ℝ) / 2) • (1 : Mat 2) := by
    rw [matrix_log_smul_one]
  have htm0 : tangentMean (SPDLogEuclideanMetric.ops 2)
      ((3 / 2 : ℝ) • (1 : Mat 2))
      [!![(2 : ℝ), 0; 0, 2], !![(1 : ℝ), 0; 0, 1]] =
      (Real.log 2 / 2 - Real.log ((3 : ℝ) / 2)) • (1 : Mat 2) := by
    rw [tangentMean]
    simp only [List.map_cons, List.map_nil, List.sum_cons, List.sum_nil,
      add_zero, List.length_cons, List.length_nil]
    show (((2 : ℕ) : ℝ))⁻¹ •
      (SPDLogEuclideanMetric.log ((3 / 2 : ℝ) • (1 : Mat 2))
          !![(2 : ℝ), 0; 0, 2] +
        SPDLogEuclideanMetric.log ((3 / 2 : ℝ) • (1 : Mat 2))
          !![(1 : ℝ), 0; 0, 1]) = _
    rw [SPDLogEuclideanMetric.log, SPDLogEuclideanMetric.log, hlog1, hlog2,
      hlog32, zero_sub, ← sub_smul, ← neg_smul, ← add_smul, smul_smul]
    congr 1
    push_cast
    ring
  -- the tangent mean is not below tolerance
  have hq : (1 / 100 : ℝ) ^ 2 ≤
      2 * (Real.log 2 / 2 - Real.log ((3 : ℝ) / 2)) ^ 2 := by
    have h98 := log_nine_eighths_ge
    have heq := log_nine_eighths_eq
    have hc : Real.log 2 / 2 - Real.log ((3 : ℝ) / 2) ≤ -(1 / 18) := by
      linarith
    have hsq : (1 / 18 : ℝ) * (1 / 18) ≤
        (-(Real.log 2 / 2 - Real.log ((3 : ℝ) / 2))) *
          (-(Real.log 2 / 2 - Real.log ((3 : ℝ) / 2))) := by
      have h18 : (1 / 18 : ℝ) ≤ -(Real.log 2 / 2 - Real.log ((3 : ℝ) / 2)) :=
        by linarith
      exact mul_le_mul h18 h18 (by norm_num) (by linarith)
    nlinarith
  have hnotlt : ¬ Real.sqrt (frobSq
      (tangentMean (SPDLogEuclideanMetric.ops 2)
        ((3 / 2 : ℝ) • (1 : Mat 2))
        [!![(2 : ℝ), 0; 0, 2], !![(1 : ℝ), 0; 0, 1]])) < tol := by
    rw [htm0, frobSq_smul_one]
    have h1 : (1 / 100 : ℝ) = Real.sqrt ((1 / 100) ^ 2) :=
      (Real.sqrt_sq (by norm_num)).symm
    have h2 : (1 / 100 : ℝ) ≤
        Real.sqrt (2 * (Real.log 2 / 2 - Real.log ((3 : ℝ) / 2)) ^ 2) := by
      rw [h1]
      exact Real.sqrt_le_sqrt hq
    exact not_lt.mpr (le_trans (le_trans htol' h2) le_rfl)
  -- the update step lands on the closed-form mean
  have hstep : (SPDLogEuclideanMetric.ops 2).exp ((3 / 2 : ℝ) • (1 : Mat 2))
      (tangentMean (SPDLogEuclideanMetric.ops 2)
        ((3 / 2 : ℝ) • (1 : Mat 2))
        [!![(2 : ℝ), 0; 0, 2], !![(1 : ℝ), 0; 0, 1]]) =
      Real.sqrt 2 • (1 : Mat 2) := by
    rw [htm0]
    show SPDLogEuclideanMetric.exp ((3 / 2 : ℝ) • (1 : Mat 2)) _ = _
    rw [SPDLogEuclideanMetric.exp, hlog32, ← add_smul, matrix_exp_smul_one]
    rw [show (Real.log ((3 : ℝ) / 2) +
        (Real.log 2 / 2 - Real.log ((3 : ℝ) / 2))) = Real.log 2 / 2 by ring,
      hhalf]
  -- at the new point the tangent mean vanishes
  have hlogs2 : matrix_log (Real.sqrt 2 • (1 : Mat 2)) =
      (Real.log 2 / 2) • (1 : Mat 2) := by
    rw [matrix_log_smul_one, Real.log_sqrt (by norm_num : (0 : ℝ) ≤ 2)]
  have htm1 : tangentMean (SPDLogEuclideanMetric.ops 2)
      (Real.sqrt 2 • (1 : Mat 2))
      [!![(2 : ℝ), 0; 0, 2], !![(1 : ℝ), 0; 0, 1]] = 0 := by
    rw [tangentMean]
    simp only [List.map_cons, List.map_nil, List.sum_cons, List.sum_nil,
      add_zero, List.length_cons, List.length_nil]
    show (((2 : ℕ) : ℝ))⁻¹ •
      (SPDLogEuclideanMetric.log (Real.sqrt 2 • (1 : Mat 2))
          !![(2 : ℝ), 0; 0, 2] +
        SPDLogEuclideanMetric.log (Real.sqrt 2 • (1 : Mat 2))
          !![(1 : ℝ), 0; 0, 1]) = 0
    rw [SPDLogEuclideanMetric.log, SPDLogEuclideanMetric.log, hlog1, hlog2,
      hlogs2, zero_sub, ← sub_smul, ← neg_smul, ← add_smul, smul_smul]
    rw [show (Real.log 2 - Real.log 2 / 2 + -(Real.log 2 / 2)) = 0 by ring,
      mul_zero, zero_smul]
  have hlt1 : Real.sqrt (frobSq (tangentMean (SPDLogEuclideanMetric.ops 2)
      (Real.sqrt 2 • (1 : Mat 2))
      [!![(2 : ℝ), 0; 0, 2], !![(1 : ℝ), 0; 0, 1]])) < tol := by
    rw [htm1, frobSq_zero, Real.sqrt_zero]
    exact htol
  -- run the loop
  obtain ⟨k, rfl⟩ : ∃ k, maxIter = k + 2 := ⟨maxIter - 2, by omega⟩
  have hloop : frechetLoop (SPDLogEuclideanMetric.ops 2) tol
      [!![(2 : ℝ), 0; 0, 2], !![(1 : ℝ), 0; 0, 1]] (k + 2)
      ((3 / 2 : ℝ) • (1 : Mat 2)) = (Real.sqrt 2 • (1 : Mat 2), 1, true) := by
    rw [frechetLoop_succ_of_not_lt hnotlt, hstep,
      frechetLoop_succ_of_lt hlt1]
  have hFM : FrechetMean (SPDLogEuclideanMetric.ops 2) tol (k + 2)
      [!![(2 : ℝ), 0; 0, 2], !![(1 : ℝ), 0; 0, 1]] =
      .ok (frechetLoop (SPDLogEuclideanMetric.ops 2) tol
        [!![(2 : ℝ), 0; 0, 2], !![(1 : ℝ), 0; 0, 1]] (k + 2)
        (arithmeticMean [!![(2 : ℝ), 0; 0, 2], !![(1 : ℝ), 0; 0, 1]])) := rfl
  refine ⟨?_, (smul_one_eq_matrix (Real.sqrt 2)), hclosed.symm, ?_, ?_, ?_⟩
  · rw [hFM, hmean, hloop]
  · -- the transform output
    show [vectorize (SPDLogEuclideanMetric.log (Real.sqrt 2 • (1 : Mat 2))
        !![(2 : ℝ), 0; 0, 2]),
      vectorize (SPDLogEuclideanMetric.log (Real.sqrt 2 • (1 : Mat 2))
        !![(1 : ℝ), 0; 0, 1])] = _
    have hv1 : SPDLogEuclideanMetric.log (Real.sqrt 2 • (1 : Mat 2))
        !![(2 : ℝ), 0; 0, 2] =
        (2 : ℝ)⁻¹ • (matrix_log !![(2 : ℝ), 0; 0, 2] -
          matrix_log !![(1 : ℝ), 0; 0, 1]) := by
      rw [SPDLogEuclideanMetric.log, hlog1, hlog2, hlogs2, sub_zero,
        ← sub_smul, smul_smul]
      congr 1
      ring
    have hv2 : SPDLogEuclideanMetric.log (Real.sqrt 2 • (1 : Mat 2))
        !![(1 : ℝ), 0; 0, 1] =
        -((2 : ℝ)⁻¹ • (matrix_log !![(2 : ℝ), 0; 0, 2] -
          matrix_log !![(1 : ℝ), 0; 0, 1])) := by
      rw [SPDLogEuclideanMetric.log, hlog1, hlog2, hlogs2, sub_zero,
        zero_sub, smul_smul,
        (by ring : ((2 : ℝ)⁻¹ * Real.log 2) = Real.log 2 / 2)]
    rw [hv1, hv2]
  · -- symmetry of the tangent matrix
    rw [hlog1, hlog2, sub_zero, smul_smul]
    rw [Matrix.IsSymm, Matrix.transpose_smul, Matrix.transpose_one]
  · intro V
    rw [vectorize_length]

/-- Witness for C9 at tolerance `1/100` and iteration cap `2`. -/
theorem end_to_end_logEuclidean_witness :
    (0 : ℝ) < 1 / 100 ∧
      FrechetMean (SPDLogEuclideanMetric.ops 2) (1 / 100) 2
          [!![(2 : ℝ), 0; 0, 2], !![(1 : ℝ), 0; 0, 1]] =
        .ok (Real.sqrt 2 • (1 : Mat 2), 1, true) := by
  refine ⟨by norm_num, ?_⟩
  exact (end_to_end_logEuclidean (1 / 100) (by norm_num) le_rfl 2 le_rfl).1

end Geomstats
